import Mathlib

/-!
Verification of the top-level decode orchestrator `DecodeFile`
(lib/jxl/dec_file.cc) of this repository.

Two parts of `DecodeFile` are embedded here:

* the "Set ICC profile in jpeg_data" step (dec_file.cc, lines 125-145),
  which redistributes the decoded ICC profile bytes over the ICC-tagged
  app-marker byte ranges of a caller-supplied legacy reconstruction
  payload (`jpeg::JPEGData`);

* the frame sequencer (dec_file.cc, lines 164-180), the nested do-while
  loops that append frame slots to `io->frames` and overwrite a slot
  until the just-decoded frame's type is a displayed one.

Bytes are modelled as `Nat`; C++ `size_t` arithmetic is modelled as `Nat`
arithmetic reduced modulo `2 ^ 64` exactly where the source computes in
`size_t`.  The per-frame decode collaborator `DecodeFrame` is opaque to
this file and is modelled as a stream of its observable outcomes.
-/

namespace JxlDecFile

/-- The size of the C++ `size_t` value space: size arithmetic in the
source is unsigned 64-bit and wraps modulo `2 ^ 64`. -/
def szW : Nat := 2 ^ 64

/-- The marker classes tagging the app-data byte ranges of the legacy
reconstruction payload (`jpeg::AppMarkerType`); the redistribution step
only distinguishes `kICC` from the rest. -/
inductive AppMarkerType where
  | kUnknown
  | kICC
  | kExif
  | kXMP
deriving DecidableEq

/-- The legacy reconstruction payload (`jpeg::JPEGData`) as far as the
redistribution step reads it: the parallel vectors `app_marker_type`
and `app_data`.  Each `app_data` entry is one byte range. -/
structure JPEGData where
  app_marker_type : List AppMarkerType
  app_data : List (List Nat)
deriving DecidableEq

/-- The loop of dec_file.cc line 128 indexes the parallel vectors
`app_marker_type[i]` / `app_data[i]` at a common index; the pair list
below is that common traversal (exact whenever the two vectors have
equal length, an invariant of `jpeg::JPEGData`). -/
def payloadEntries (jd : JPEGData) : List (AppMarkerType × List Nat) :=
  jd.app_marker_type.zip jd.app_data

/-- The `size_t` computation `len = app_data[i].size() - 17` of
dec_file.cc line 132: unsigned subtraction, wrapping modulo `2 ^ 64`. -/
def iccRangeLen (d : List Nat) : Nat := (d.length + (szW - 17)) % szW

/-- The redistribution loop of dec_file.cc lines 128-141, threading the
running offset `icc_pos`: non-ICC entries are skipped; for an ICC entry
the underrun check `icc_pos + len > icc.size()` fires before anything is
written, and otherwise `memcpy(&app_data[i][17], icc.data() + icc_pos,
len)` replaces the `len` bytes starting 17 bytes into the range by the
profile bytes starting at `icc_pos`, and `icc_pos += len`.  Returns the
updated `app_data` vector together with the final `icc_pos`. -/
def distributeICC (icc : List Nat) :
    List (AppMarkerType × List Nat) → Nat →
    Except String (List (List Nat) × Nat)
  | [], icc_pos => .ok ([], icc_pos)
  | e :: rest, icc_pos =>
    if e.1 ≠ AppMarkerType.kICC then
      match distributeICC icc rest icc_pos with
      | .error msg => .error msg
      | .ok (ds, p) => .ok (e.2 :: ds, p)
    else
      if icc.length < (icc_pos + iccRangeLen e.2) % szW then
        .error "ICC length is less than APP markers"
      else
        match distributeICC icc rest ((icc_pos + iccRangeLen e.2) % szW) with
        | .error msg => .error msg
        | .ok (ds, p) =>
          .ok ((e.2.take 17 ++ (icc.drop icc_pos).take (iccRangeLen e.2) ++
                e.2.drop (17 + iccRangeLen e.2)) :: ds, p)

/-- The whole "Set ICC profile in jpeg_data" step of `DecodeFile`
(dec_file.cc lines 125-145): run the redistribution loop from
`icc_pos = 0`, then fail with the overrun message when the final offset
is neither the profile length nor zero (dec_file.cc lines 142-144). -/
def setICCAppData (icc : List Nat) (jd : JPEGData) : Except String JPEGData :=
  match distributeICC icc (payloadEntries jd) 0 with
  | .error msg => .error msg
  | .ok (ds, icc_pos) =>
    if icc_pos ≠ icc.length ∧ icc_pos ≠ 0 then
      .error "ICC length is more than APP markers"
    else
      .ok { app_marker_type := jd.app_marker_type, app_data := ds }

/-- The number of profile bytes the ICC-tagged entries of the payload
consume, in order: the sum of `iccRangeLen` over the ICC-tagged entries.
This is the value of the running offset `icc_pos` after the loop. -/
def iccNeed : List (AppMarkerType × List Nat) → Nat
  | [] => 0
  | e :: rest =>
    (if e.1 = AppMarkerType.kICC then iccRangeLen e.2 else 0) + iccNeed rest

/-- Well-formedness of the payload entries against a profile, as the
source's data model guarantees: an ICC-tagged app-data entry carries its
fixed 17-byte header, and entry and profile, both objects living in one
address space, together fit in the `size_t` range (so none of the
`size_t` computations of the loop wraps). -/
@[reducible]
def ICCWellFormed (icc : List Nat) (entries : List (AppMarkerType × List Nat)) : Prop :=
  ∀ e ∈ entries, e.1 = AppMarkerType.kICC →
    17 ≤ e.2.length ∧ e.2.length + icc.length < szW

/-- The redistribution described by the spec's words, as the refinement
target for the source loop: entry `i` of the payload, when ICC-tagged,
keeps its first 17 bytes and receives after them the contiguous slice of
the profile that starts at the running offset
`iccNeed (entries.take i)` — the sum of the lengths of the slices
written to the earlier ICC-tagged entries, so consecutive slices are
adjacent and non-overlapping and appear in payload order — with length
the entry's length minus 17; entries with other tags are unchanged. -/
def specRedistribute (icc : List Nat)
    (entries : List (AppMarkerType × List Nat)) : List (List Nat) :=
  (List.range entries.length).map fun i =>
    let e := entries.getD i (AppMarkerType.kUnknown, [])
    if e.1 = AppMarkerType.kICC then
      e.2.take 17 ++ (icc.drop (iccNeed (entries.take i))).take (e.2.length - 17)
    else
      e.2

/-- The frame types of the source's `FrameHeader` (frame_header.h). -/
inductive FrameType where
  | kRegularFrame
  | kLFFrame
  | kReferenceOnly
  | kSkipProgressive
deriving DecidableEq

/-- What one invocation of the opaque `DecodeFrame` collaborator leaves
behind, as far as the frame sequencer reads it: the decoded frame slot
contents (abstracted to an identifier) and the shared
`frame_header` fields the two loop conditions test. -/
structure FrameOutcome where
  content : Nat
  frameType : FrameType
  isLast : Bool
deriving DecidableEq

/-- The displayed frame types: the inner loop of the sequencer exits
exactly when `frame_type` is `kRegularFrame` or `kSkipProgressive`
(dec_file.cc lines 175-178). -/
def isDisplayedType (ft : FrameType) : Bool :=
  match ft with
  | FrameType.kRegularFrame => true
  | FrameType.kSkipProgressive => true
  | _ => false

/-- The frame sequencer of `DecodeFile` (dec_file.cc lines 164-180) over
the stream of outcomes produced by successive `DecodeFrame` calls,
returning the `io->frames` list it builds.  The outer do-while appends
one slot (`io->frames.emplace_back()`) per iteration and the inner
do-while decodes into that same slot (`&io->frames.back()`), overwriting
it, while the just-decoded type is not displayed; over the outcome
stream this reads as: a non-displayed outcome leaves the pending slot to
be overwritten and contributes nothing, a displayed outcome fixes the
slot's final contents, and the outer loop stops once a displayed
outcome carries `is_last`.  An exhausted stream models `DecodeFrame`
failing, which aborts the sequencer (`JXL_RETURN_IF_ERROR`). -/
def frameSeq : List FrameOutcome → Except String (List FrameOutcome)
  | [] => .error "frame decode failed"
  | f :: rest =>
    if isDisplayedType f.frameType then
      if f.isLast then
        .ok [f]
      else
        match frameSeq rest with
        | .error msg => .error msg
        | .ok frames => .ok (f :: frames)
    else
      frameSeq rest

/-- Under the well-formedness bounds no `size_t` wrap happens in
`len = app_data[i].size() - 17`: the wrapped subtraction is the plain
one. -/
theorem iccRangeLen_sub (d : List Nat) (h17 : 17 ≤ d.length)
    (hlt : d.length < szW) : iccRangeLen d = d.length - 17 := by
  have h : d.length < 2 ^ 64 := hlt
  show (d.length + (2 ^ 64 - 17)) % 2 ^ 64 = d.length - 17
  omega

/-- Well-formedness restricts to the tail of the entry list. -/
theorem ICCWellFormed.tail {icc : List Nat} {e : AppMarkerType × List Nat}
    {rest : List (AppMarkerType × List Nat)}
    (h : ICCWellFormed icc (e :: rest)) : ICCWellFormed icc rest :=
  fun x hx => h x (List.mem_cons_of_mem e hx)

/-- Contents of a successful run of the redistribution loop, started at
an arbitrary offset `pos`: the final offset advanced by exactly the
ICC-tagged entries' total need, and entry `i` of the output is the input
entry unless it is ICC-tagged, in which case its bytes from index 17 on
were replaced by the profile slice at running offset
`pos + iccNeed (entries.take i)`. -/
theorem distributeICC_ok_spec (icc : List Nat) :
    ∀ (entries : List (AppMarkerType × List Nat)) (pos : Nat)
      (out : List (List Nat)) (p : Nat),
      ICCWellFormed icc entries → pos ≤ icc.length →
      distributeICC icc entries pos = .ok (out, p) →
      p = pos + iccNeed entries ∧
      out = (List.range entries.length).map (fun i =>
        let e := entries.getD i (AppMarkerType.kUnknown, [])
        if e.1 = AppMarkerType.kICC then
          e.2.take 17 ++
            (icc.drop (pos + iccNeed (entries.take i))).take (e.2.length - 17)
        else e.2) := by
  intro entries
  induction entries with
  | nil =>
    intro pos out p hwf hpos h
    simp [distributeICC] at h
    simp [iccNeed, h.1.symm, h.2]
  | cons e rest ih =>
    intro pos out p hwf hpos h
    have hwfr : ICCWellFormed icc rest := hwf.tail
    by_cases he : e.1 = AppMarkerType.kICC
    · obtain ⟨h17, hmem⟩ := hwf e (List.mem_cons_self e rest) he
      have hlen : iccRangeLen e.2 = e.2.length - 17 :=
        iccRangeLen_sub e.2 h17 (by omega)
      have hnw : (pos + iccRangeLen e.2) % szW = pos + iccRangeLen e.2 := by
        apply Nat.mod_eq_of_lt
        unfold szW at *
        omega
      simp only [distributeICC, he, ne_eq, not_true_eq_false, if_false, hnw] at h
      by_cases hover : icc.length < pos + iccRangeLen e.2
      · simp [hover] at h
      · simp only [hover, if_false] at h
        cases hrec : distributeICC icc rest (pos + iccRangeLen e.2) with
        | error msg => rw [hrec] at h; exact absurd h (by simp)
        | ok dsp =>
          obtain ⟨ds, p0⟩ := dsp
          rw [hrec] at h
          simp only [Except.ok.injEq, Prod.mk.injEq] at h
          obtain ⟨hout, hp⟩ := h
          have hpos' : pos + iccRangeLen e.2 ≤ icc.length := Nat.not_lt.mp hover
          obtain ⟨hp0, hds⟩ := ih (pos + iccRangeLen e.2) ds p0 hwfr hpos' hrec
          refine ⟨by simp only [iccNeed, he, if_true]; omega, ?_⟩
          rw [← hout, hds, List.length_cons, List.range_succ_eq_map,
            List.map_cons, List.map_map]
          refine List.cons_eq_cons.mpr ⟨?_, ?_⟩
          · have h172 : 17 + (e.2.length - 17) = e.2.length := by omega
            simp [he, hlen, iccNeed, h172]
          · apply List.map_congr_left
            intro j hj
            simp [Function.comp, List.getD_cons_succ,
              List.take_succ_cons, iccNeed, he, Nat.add_assoc]
    · simp only [distributeICC, he, ne_eq, not_false_eq_true, if_true] at h
      cases hrec : distributeICC icc rest pos with
      | error msg => rw [hrec] at h; exact absurd h (by simp)
      | ok dsp =>
        obtain ⟨ds, p0⟩ := dsp
        rw [hrec] at h
        simp only [Except.ok.injEq, Prod.mk.injEq] at h
        obtain ⟨hout, hp⟩ := h
        obtain ⟨hp0, hds⟩ := ih pos ds p0 hwfr hpos hrec
        refine ⟨by simp only [iccNeed, he, if_false]; omega, ?_⟩
        rw [← hout, hds, List.length_cons, List.range_succ_eq_map,
          List.map_cons, List.map_map]
        refine List.cons_eq_cons.mpr ⟨?_, ?_⟩
        · simp [he]
        · apply List.map_congr_left
          intro j hj
          simp [Function.comp, List.getD_cons_succ,
            List.take_succ_cons, iccNeed, he]

/-- When the ICC-tagged entries need more profile bytes than are left
past `pos`, the loop fails with the underrun message. -/
theorem distributeICC_underrun (icc : List Nat) :
    ∀ (entries : List (AppMarkerType × List Nat)) (pos : Nat),
      ICCWellFormed icc entries → pos ≤ icc.length →
      icc.length < pos + iccNeed entries →
      distributeICC icc entries pos =
        .error "ICC length is less than APP markers" := by
  intro entries
  induction entries with
  | nil =>
    intro pos hwf hpos hover
    simp only [iccNeed, Nat.add_zero] at hover
    omega
  | cons e rest ih =>
    intro pos hwf hpos hover
    by_cases he : e.1 = AppMarkerType.kICC
    · obtain ⟨h17, hmem⟩ := hwf e (List.mem_cons_self e rest) he
      have hnw : (pos + iccRangeLen e.2) % szW = pos + iccRangeLen e.2 := by
        apply Nat.mod_eq_of_lt
        have hlen : iccRangeLen e.2 = e.2.length - 17 :=
          iccRangeLen_sub e.2 h17 (by omega)
        unfold szW at *
        omega
      simp only [distributeICC, he, ne_eq, not_true_eq_false, if_false, hnw]
      by_cases hover0 : icc.length < pos + iccRangeLen e.2
      · rw [if_pos hover0]
      · rw [if_neg hover0]
        have hover' : icc.length < (pos + iccRangeLen e.2) + iccNeed rest := by
          simp only [iccNeed, he, if_true] at hover
          omega
        rw [ih (pos + iccRangeLen e.2) hwf.tail (Nat.not_lt.mp hover0) hover']
    · have hover' : icc.length < pos + iccNeed rest := by
        simp only [iccNeed, he, if_false] at hover
        omega
      simp only [distributeICC, he, ne_eq, not_false_eq_true, if_true]
      rw [ih pos hwf.tail hpos hover']

/-- The loop only ever fails with the underrun message, and only when
the ICC-tagged entries need more profile bytes than are left. -/
theorem distributeICC_error_over (icc : List Nat) :
    ∀ (entries : List (AppMarkerType × List Nat)) (pos : Nat) (msg : String),
      ICCWellFormed icc entries → pos ≤ icc.length →
      distributeICC icc entries pos = .error msg →
      msg = "ICC length is less than APP markers" ∧
      icc.length < pos + iccNeed entries := by
  intro entries
  induction entries with
  | nil =>
    intro pos msg hwf hpos h
    simp [distributeICC] at h
  | cons e rest ih =>
    intro pos msg hwf hpos h
    by_cases he : e.1 = AppMarkerType.kICC
    · obtain ⟨h17, hmem⟩ := hwf e (List.mem_cons_self e rest) he
      have hlen : iccRangeLen e.2 = e.2.length - 17 :=
        iccRangeLen_sub e.2 h17 (by omega)
      have hnw : (pos + iccRangeLen e.2) % szW = pos + iccRangeLen e.2 := by
        apply Nat.mod_eq_of_lt
        unfold szW at *
        omega
      simp only [distributeICC, he, ne_eq, not_true_eq_false, if_false, hnw] at h
      by_cases hover0 : icc.length < pos + iccRangeLen e.2
      · rw [if_pos hover0] at h
        have hmsg : msg = "ICC length is less than APP markers" :=
          (Except.error.inj h).symm
        refine ⟨hmsg, ?_⟩
        simp only [iccNeed, he, if_true]
        omega
      · rw [if_neg hover0] at h
        cases hrec : distributeICC icc rest (pos + iccRangeLen e.2) with
        | error msg0 =>
          rw [hrec] at h
          have hmsg : msg0 = msg := Except.error.inj h
          obtain ⟨h1, h2⟩ :=
            ih (pos + iccRangeLen e.2) msg0 hwf.tail (Nat.not_lt.mp hover0) hrec
          refine ⟨hmsg ▸ h1, ?_⟩
          simp only [iccNeed, he, if_true]
          omega
        | ok dsp => rw [hrec] at h; exact absurd h (by simp)
    · simp only [distributeICC, he, ne_eq, not_false_eq_true, if_true] at h
      cases hrec : distributeICC icc rest pos with
      | error msg0 =>
        rw [hrec] at h
        have hmsg : msg0 = msg := Except.error.inj h
        obtain ⟨h1, h2⟩ := ih pos msg0 hwf.tail hpos hrec
        refine ⟨hmsg ▸ h1, ?_⟩
        simp only [iccNeed, he, if_false]
        omega
      | ok dsp => rw [hrec] at h; exact absurd h (by simp)

/-- The bytes needed by the ICC-tagged entries up to entry `i`, plus
entry `i`'s own need, never exceed the total need. -/
theorem iccNeed_take_le (entries : List (AppMarkerType × List Nat)) :
    ∀ i, i < entries.length →
      (entries.getD i (AppMarkerType.kUnknown, [])).1 = AppMarkerType.kICC →
      iccNeed (entries.take i) +
        iccRangeLen ((entries.getD i (AppMarkerType.kUnknown, [])).2) ≤
        iccNeed entries := by
  induction entries with
  | nil => intro i hi; simp at hi
  | cons e rest ih =>
    intro i hi htag
    cases i with
    | zero =>
      simp only [List.getD_cons_zero] at htag ⊢
      simp only [List.take_zero, iccNeed, htag, if_true, Nat.zero_add]
      omega
    | succ j =>
      simp only [List.getD_cons_succ] at htag ⊢
      simp only [List.take_succ_cons, iccNeed]
      have hj : j < rest.length := by
        simp only [List.length_cons] at hi
        omega
      have hle := ih j hj htag
      by_cases he : e.1 = AppMarkerType.kICC
      · simp only [he, if_true]
        omega
      · simp only [he, if_false]
        omega

/-- If the profile is shorter than the running offset before some
ICC-tagged entry plus that entry's byte requirement, it is shorter than
the total requirement. -/
theorem iccNeed_over_of_entry (icc : List Nat)
    (entries : List (AppMarkerType × List Nat)) (pos i : Nat)
    (hwf : ICCWellFormed icc entries) (hi : i < entries.length)
    (htag : (entries.getD i (AppMarkerType.kUnknown, [])).1 =
      AppMarkerType.kICC)
    (hlt : icc.length < pos + iccNeed (entries.take i) +
      ((entries.getD i (AppMarkerType.kUnknown, [])).2.length - 17)) :
    icc.length < pos + iccNeed entries := by
  have hmem : entries.getD i (AppMarkerType.kUnknown, []) ∈ entries := by
    rw [List.getD_eq_getElem _ _ hi]
    exact List.getElem_mem hi
  obtain ⟨h17, hbound⟩ := hwf _ hmem htag
  have hlen : iccRangeLen ((entries.getD i (AppMarkerType.kUnknown, [])).2) =
      (entries.getD i (AppMarkerType.kUnknown, [])).2.length - 17 :=
    iccRangeLen_sub _ h17 (by omega)
  have := iccNeed_take_le entries i hi htag
  omega

/-- Conversely, a profile shorter than the total requirement is short
before some specific ICC-tagged entry: the first one whose requirement
crosses the profile end. -/
theorem entry_of_iccNeed_over (icc : List Nat) :
    ∀ (entries : List (AppMarkerType × List Nat)) (pos : Nat),
      ICCWellFormed icc entries → pos ≤ icc.length →
      icc.length < pos + iccNeed entries →
      ∃ i, i < entries.length ∧
        (entries.getD i (AppMarkerType.kUnknown, [])).1 =
          AppMarkerType.kICC ∧
        icc.length < pos + iccNeed (entries.take i) +
          ((entries.getD i (AppMarkerType.kUnknown, [])).2.length - 17) := by
  intro entries
  induction entries with
  | nil =>
    intro pos hwf hpos hover
    simp only [iccNeed, Nat.add_zero] at hover
    omega
  | cons e rest ih =>
    intro pos hwf hpos hover
    by_cases he : e.1 = AppMarkerType.kICC
    · obtain ⟨h17, hmem⟩ := hwf e (List.mem_cons_self e rest) he
      have hlen : iccRangeLen e.2 = e.2.length - 17 :=
        iccRangeLen_sub e.2 h17 (by omega)
      by_cases h1 : icc.length < pos + (e.2.length - 17)
      · refine ⟨0, Nat.succ_pos _, ?_, ?_⟩
        · simpa only [List.getD_cons_zero] using he
        · simp only [List.getD_cons_zero, List.take_zero, iccNeed,
            Nat.add_zero]
          omega
      · have hover' : icc.length < (pos + iccRangeLen e.2) + iccNeed rest := by
          simp only [iccNeed, he, if_true] at hover
          omega
        obtain ⟨j, hj, htag, hlt⟩ :=
          ih (pos + iccRangeLen e.2) hwf.tail (by omega) hover'
        refine ⟨j + 1, by simpa using Nat.succ_lt_succ hj, ?_, ?_⟩
        · simpa only [List.getD_cons_succ] using htag
        · simp only [List.getD_cons_succ, List.take_succ_cons, iccNeed, he,
            if_true]
          omega
    · have hover' : icc.length < pos + iccNeed rest := by
        simp only [iccNeed, he, if_false] at hover
        omega
      obtain ⟨j, hj, htag, hlt⟩ := ih pos hwf.tail hpos hover'
      refine ⟨j + 1, by simpa using Nat.succ_lt_succ hj, ?_, ?_⟩
      · simpa only [List.getD_cons_succ] using htag
      · simp only [List.getD_cons_succ, List.take_succ_cons, iccNeed, he,
          if_false]
        omega

/-- C3: in every iteration of the frame sequencer, a just-decoded frame
whose type is neither `kRegularFrame` nor `kSkipProgressive` only causes
the same slot to be decoded into again (overwritten, never appended), so
on a completed decode every entry of the resulting `io->frames` list is
of a displayed type; moreover the list is, in order, a selection from
the displayed outcomes of the decode stream, so no non-displayed outcome
ever survives into it. -/
theorem frameSeq_entries_displayed (stream frames : List FrameOutcome)
    (h : frameSeq stream = .ok frames) :
    frames.all (fun f => isDisplayedType f.frameType) = true ∧
    frames.Sublist (stream.filter (fun f => isDisplayedType f.frameType)) := by
  induction stream generalizing frames with
  | nil => simp [frameSeq] at h
  | cons f rest ih =>
    by_cases hd : isDisplayedType f.frameType
    · by_cases hl : f.isLast
      · have hfr : frames = [f] := by
          simp [frameSeq, hd, hl] at h
          exact h.symm
        subst hfr
        refine ⟨by simp [hd], ?_⟩
        rw [List.filter_cons_of_pos (by simpa using hd)]
        exact (List.nil_sublist _).cons₂ f
      · simp only [frameSeq, hd, hl, if_true, if_false, Bool.false_eq_true] at h
        cases hrec : frameSeq rest with
        | error msg => rw [hrec] at h; exact absurd h (by simp)
        | ok frames0 =>
          rw [hrec] at h
          have hfr : frames = f :: frames0 := by
            simpa using h.symm
          subst hfr
          obtain ⟨hall, hsub⟩ := ih frames0 hrec
          refine ⟨by simp [hd, hall], ?_⟩
          rw [List.filter_cons_of_pos (by simpa using hd)]
          exact hsub.cons₂ f
    · simp only [frameSeq, hd, if_false, Bool.false_eq_true] at h
      obtain ⟨hall, hsub⟩ := ih frames h
      refine ⟨hall, ?_⟩
      rw [List.filter_cons_of_neg (by simpa using hd)]
      exact hsub

/-- Witness for C3 at a concrete four-outcome decode stream: a
reference-only outcome (even one carrying `is_last`) and an LF outcome
are overwritten, and the resulting frame list holds exactly the regular
and skip-progressive outcomes. -/
theorem frameSeq_entries_displayed_witness :
    ([⟨1, FrameType.kRegularFrame, false⟩,
      ⟨3, FrameType.kSkipProgressive, true⟩] : List FrameOutcome).all
        (fun f => isDisplayedType f.frameType) = true ∧
    ([⟨1, FrameType.kRegularFrame, false⟩,
      ⟨3, FrameType.kSkipProgressive, true⟩] : List FrameOutcome).Sublist
      (([⟨0, FrameType.kReferenceOnly, true⟩,
         ⟨1, FrameType.kRegularFrame, false⟩,
         ⟨2, FrameType.kLFFrame, false⟩,
         ⟨3, FrameType.kSkipProgressive, true⟩] : List FrameOutcome).filter
        (fun f => isDisplayedType f.frameType)) :=
  frameSeq_entries_displayed
    [⟨0, FrameType.kReferenceOnly, true⟩,
     ⟨1, FrameType.kRegularFrame, false⟩,
     ⟨2, FrameType.kLFFrame, false⟩,
     ⟨3, FrameType.kSkipProgressive, true⟩]
    [⟨1, FrameType.kRegularFrame, false⟩,
     ⟨3, FrameType.kSkipProgressive, true⟩]
    rfl

/-- C1: when a legacy-reconstruction payload is supplied and an ICC
profile was decoded, a successful redistribution step writes into each
ICC-tagged byte range of the payload a contiguous slice of the profile
starting 17 bytes into the range, the slices being taken in payload
order at a running offset equal to the sum of the previously written
slice lengths (so they are adjacent and non-overlapping), while ranges
with other tags are left unchanged: the step's output is exactly
`specRedistribute`, the transliteration of the spec's description. -/
theorem setICCAppData_refines_spec (icc : List Nat) (jd jd' : JPEGData)
    (hwf : ICCWellFormed icc (payloadEntries jd))
    (hok : setICCAppData icc jd = .ok jd') :
    jd'.app_marker_type = jd.app_marker_type ∧
    jd'.app_data = specRedistribute icc (payloadEntries jd) := by
  cases hdist : distributeICC icc (payloadEntries jd) 0 with
  | error msg =>
    have hset : setICCAppData icc jd = .error msg := by
      unfold setICCAppData
      rw [hdist]
    rw [hset] at hok
    exact absurd hok (by simp)
  | ok dsp =>
    obtain ⟨ds, icc_pos⟩ := dsp
    have hcalc : setICCAppData icc jd =
        if icc_pos ≠ icc.length ∧ icc_pos ≠ 0 then
          .error "ICC length is more than APP markers"
        else .ok ⟨jd.app_marker_type, ds⟩ := by
      unfold setICCAppData
      rw [hdist]
    rw [hcalc] at hok
    by_cases hguard : icc_pos ≠ icc.length ∧ icc_pos ≠ 0
    · rw [if_pos hguard] at hok
      exact absurd hok (by simp)
    · rw [if_neg hguard] at hok
      obtain ⟨hp, hds⟩ := distributeICC_ok_spec icc (payloadEntries jd) 0 ds
        icc_pos hwf (Nat.zero_le _) hdist
      have hjd : jd' = ⟨jd.app_marker_type, ds⟩ := (Except.ok.inj hok).symm
      subst hjd
      refine ⟨rfl, ?_⟩
      show ds = specRedistribute icc (payloadEntries jd)
      rw [hds]
      unfold specRedistribute
      apply List.map_congr_left
      intro i hi
      simp only [Nat.zero_add]

/-- Witness for C1 at a concrete payload: a non-ICC range is untouched
and a 20-byte ICC-tagged range receives the 3 profile bytes right after
its 17-byte header. -/
theorem setICCAppData_refines_spec_witness :
    (⟨[AppMarkerType.kExif, AppMarkerType.kICC],
      [[9, 9], List.replicate 17 0 ++ [1, 2, 3]]⟩ : JPEGData).app_marker_type =
      (⟨[AppMarkerType.kExif, AppMarkerType.kICC],
        [[9, 9], List.replicate 17 0 ++ [5, 5, 5]]⟩ : JPEGData).app_marker_type ∧
    (⟨[AppMarkerType.kExif, AppMarkerType.kICC],
      [[9, 9], List.replicate 17 0 ++ [1, 2, 3]]⟩ : JPEGData).app_data =
      specRedistribute [1, 2, 3]
        (payloadEntries ⟨[AppMarkerType.kExif, AppMarkerType.kICC],
          [[9, 9], List.replicate 17 0 ++ [5, 5, 5]]⟩) :=
  setICCAppData_refines_spec [1, 2, 3]
    ⟨[AppMarkerType.kExif, AppMarkerType.kICC],
      [[9, 9], List.replicate 17 0 ++ [5, 5, 5]]⟩
    ⟨[AppMarkerType.kExif, AppMarkerType.kICC],
      [[9, 9], List.replicate 17 0 ++ [1, 2, 3]]⟩
    (by decide) rfl

/-- C2: the redistribution step fails with the underrun message exactly
when some ICC-tagged range needs more profile bytes than remain past
the running offset accumulated before it (the check fires before that
range is written; in this embedding a failing run produces no output at
all), and with the overrun message exactly when the loop completes
(total need at most the profile length) with a final offset that is
neither zero nor the profile length; a run whose final offset is still
zero is accepted. -/
theorem setICCAppData_error_characterization (icc : List Nat)
    (jd : JPEGData) (hwf : ICCWellFormed icc (payloadEntries jd)) :
    (setICCAppData icc jd = .error "ICC length is less than APP markers" ↔
      ∃ i, i < (payloadEntries jd).length ∧
        ((payloadEntries jd).getD i (AppMarkerType.kUnknown, [])).1 =
          AppMarkerType.kICC ∧
        icc.length < iccNeed ((payloadEntries jd).take i) +
          (((payloadEntries jd).getD i
            (AppMarkerType.kUnknown, [])).2.length - 17)) ∧
    (setICCAppData icc jd = .error "ICC length is more than APP markers" ↔
      iccNeed (payloadEntries jd) ≤ icc.length ∧
      iccNeed (payloadEntries jd) ≠ 0 ∧
      iccNeed (payloadEntries jd) ≠ icc.length) ∧
    (iccNeed (payloadEntries jd) = 0 →
      ∃ jd', setICCAppData icc jd = .ok jd') := by
  by_cases hover : icc.length < iccNeed (payloadEntries jd)
  · have hdist := distributeICC_underrun icc (payloadEntries jd) 0 hwf
      (Nat.zero_le _) (by omega)
    have hset : setICCAppData icc jd =
        .error "ICC length is less than APP markers" := by
      unfold setICCAppData
      rw [hdist]
    refine ⟨⟨fun _ => ?_, fun _ => hset⟩, ⟨fun h => ?_, fun h => ?_⟩, fun hT0 => ?_⟩
    · obtain ⟨i, hi, ht, hlt⟩ := entry_of_iccNeed_over icc (payloadEntries jd)
        0 hwf (Nat.zero_le _) (by omega)
      exact ⟨i, hi, ht, by omega⟩
    · rw [hset] at h
      exact absurd (Except.error.inj h) (by decide)
    · exact absurd h.1 (by omega)
    · exact absurd hT0 (by omega)
  · cases hdist : distributeICC icc (payloadEntries jd) 0 with
    | error msg =>
      obtain ⟨_, h2⟩ := distributeICC_error_over icc (payloadEntries jd) 0 msg
        hwf (Nat.zero_le _) hdist
      exact absurd h2 (by omega)
    | ok dsp =>
      obtain ⟨ds, p⟩ := dsp
      obtain ⟨hp, hds⟩ := distributeICC_ok_spec icc (payloadEntries jd) 0 ds p
        hwf (Nat.zero_le _) hdist
      have hcalc : setICCAppData icc jd =
          if p ≠ icc.length ∧ p ≠ 0 then
            .error "ICC length is more than APP markers"
          else .ok ⟨jd.app_marker_type, ds⟩ := by
        unfold setICCAppData
        rw [hdist]
      by_cases hguard : p ≠ icc.length ∧ p ≠ 0
      · have hset : setICCAppData icc jd =
            .error "ICC length is more than APP markers" := by
          rw [hcalc, if_pos hguard]
        refine ⟨⟨fun h => ?_, fun h => ?_⟩,
          ⟨fun _ => ⟨by omega, by omega, by omega⟩, fun _ => hset⟩,
          fun hT0 => ?_⟩
        · rw [hset] at h
          exact absurd (Except.error.inj h) (by decide)
        · obtain ⟨i, hi, ht, hlt⟩ := h
          have := iccNeed_over_of_entry icc (payloadEntries jd) 0 i hwf hi ht
            (by omega)
          exact absurd this (by omega)
        · exact absurd hT0 (by omega)
      · have hset : setICCAppData icc jd = .ok ⟨jd.app_marker_type, ds⟩ := by
          rw [hcalc, if_neg hguard]
        refine ⟨⟨fun h => ?_, fun h => ?_⟩, ⟨fun h => ?_, fun h => ?_⟩,
          fun _ => ⟨⟨jd.app_marker_type, ds⟩, hset⟩⟩
        · rw [hset] at h
          exact absurd h (by simp)
        · obtain ⟨i, hi, ht, hlt⟩ := h
          have := iccNeed_over_of_entry icc (payloadEntries jd) 0 i hwf hi ht
            (by omega)
          exact absurd this (by omega)
        · rw [hset] at h
          exact absurd h (by simp)
        · exact absurd hguard (by omega)

/-- Witness for C2 at a concrete underrun: a 20-byte ICC-tagged range
needs 3 profile bytes but the decoded profile has only 2. -/
theorem setICCAppData_error_characterization_witness :
    (setICCAppData [1, 2]
        ⟨[AppMarkerType.kICC], [List.replicate 17 0 ++ [5, 5, 5]]⟩ =
        .error "ICC length is less than APP markers" ↔
      ∃ i, i < (payloadEntries
          ⟨[AppMarkerType.kICC], [List.replicate 17 0 ++ [5, 5, 5]]⟩).length ∧
        ((payloadEntries
          ⟨[AppMarkerType.kICC], [List.replicate 17 0 ++ [5, 5, 5]]⟩).getD i
            (AppMarkerType.kUnknown, [])).1 = AppMarkerType.kICC ∧
        ([1, 2] : List Nat).length < iccNeed ((payloadEntries
          ⟨[AppMarkerType.kICC], [List.replicate 17 0 ++ [5, 5, 5]]⟩).take i) +
          (((payloadEntries
            ⟨[AppMarkerType.kICC], [List.replicate 17 0 ++ [5, 5, 5]]⟩).getD i
              (AppMarkerType.kUnknown, [])).2.length - 17)) ∧
    (setICCAppData [1, 2]
        ⟨[AppMarkerType.kICC], [List.replicate 17 0 ++ [5, 5, 5]]⟩ =
        .error "ICC length is more than APP markers" ↔
      iccNeed (payloadEntries
        ⟨[AppMarkerType.kICC], [List.replicate 17 0 ++ [5, 5, 5]]⟩) ≤
        ([1, 2] : List Nat).length ∧
      iccNeed (payloadEntries
        ⟨[AppMarkerType.kICC], [List.replicate 17 0 ++ [5, 5, 5]]⟩) ≠ 0 ∧
      iccNeed (payloadEntries
        ⟨[AppMarkerType.kICC], [List.replicate 17 0 ++ [5, 5, 5]]⟩) ≠
        ([1, 2] : List Nat).length) ∧
    (iccNeed (payloadEntries
        ⟨[AppMarkerType.kICC], [List.replicate 17 0 ++ [5, 5, 5]]⟩) = 0 →
      ∃ jd', setICCAppData [1, 2]
        ⟨[AppMarkerType.kICC], [List.replicate 17 0 ++ [5, 5, 5]]⟩ =
        .ok jd') :=
  setICCAppData_error_characterization [1, 2]
    ⟨[AppMarkerType.kICC], [List.replicate 17 0 ++ [5, 5, 5]]⟩ (by decide)

end JxlDecFile
